import Mathlib

/-!
Verification of the Greenlight-MD core: link parsing (`link_utils.py`),
the note graph builder, the force-directed layout (`graph.py`) and the
line-oriented editor buffer (`editor.py`), shallowly embedded in Lean.
Text is modelled as `List Char`, Python dicts as association lists,
Python floats as rationals with `math.sqrt` and `random.randint`
abstracted as parameters.
-/

namespace Greenlight

/-! ### LinkParser (`link_utils.py`, `link_pattern = \[\[([^\]]+)\]\]`) -/

/-- One attempt of the regex at a position where the text starts with `[[`:
`rest` is the text after the two brackets.  The group `[^\]]+` greedily
takes the maximal nonempty run of non-`]` characters; the match succeeds
when that run is followed by `]]`.  Returns the captured name and the
remainder after the match. -/
def tryLinkAt (rest : List Char) : Option (List Char × List Char) :=
  let name := rest.takeWhile (fun c => c ≠ ']')
  if name.isEmpty then none
  else
    match rest.drop name.length with
    | ']' :: ']' :: r => some (name, r)
    | _ => none

/-- `link_pattern.findall`: left-to-right, non-overlapping scan for
`[[name]]` occurrences, returning the captured names. -/
def extractLinks : List Char → List (List Char)
  | [] => []
  | '[' :: '[' :: rest =>
    match h : tryLinkAt rest with
    | some (name, r) => name :: extractLinks r
    | none => extractLinks ('[' :: rest)
  | _ :: rest => extractLinks rest
termination_by cs => cs.length
decreasing_by
  · simp only [tryLinkAt] at h
    split at h
    · exact absurd h (by simp)
    · split at h
      next heq =>
        simp only [Option.some.injEq, Prod.mk.injEq] at h
        obtain ⟨-, hr⟩ := h
        subst hr
        have hlen : (rest.takeWhile (fun c => c ≠ ']')).length ≤ rest.length :=
          (List.takeWhile_prefix _).length_le
        have := congrArg List.length heq
        simp [List.length_drop] at this
        simp only [List.length_cons]
        omega
      · exact absurd h (by simp)
  · simp only [List.length_cons]; omega
  · simp only [List.length_cons]; omega

/-! ### Line splitting (`editor.py` line 32: `f.read().splitlines()`) -/

/-- The line-boundary characters recognised by Python `str.splitlines`. -/
def isLineBoundary (c : Char) : Bool :=
  c = '\n' || c = '\r' || c = '\x0b' || c = '\x0c' ||
  c = '\x1c' || c = '\x1d' || c = '\x1e' || c = '\x85' ||
  c = '\u2028' || c = '\u2029'

/-- Consume the `\n` of a `\r\n` pair: after a boundary character `c`,
Python `splitlines` treats `\r\n` as one boundary. -/
def dropCrLf (c : Char) (rest : List Char) : List Char :=
  if c = '\r' then
    match rest with
    | '\n' :: r => r
    | _ => rest
  else rest

theorem dropCrLf_length_le (c : Char) (rest : List Char) :
    (dropCrLf c rest).length ≤ rest.length := by
  unfold dropCrLf
  split
  · split <;> simp
  · simp

/-- Worker for `pySplitlines`: `acc` holds the current line reversed. -/
def pySLA : List Char → List Char → List (List Char)
  | [], acc => if acc.isEmpty then [] else [acc.reverse]
  | c :: rest, acc =>
    if isLineBoundary c then acc.reverse :: pySLA (dropCrLf c rest) []
    else pySLA rest (c :: acc)
termination_by cs => cs.length
decreasing_by
  · have := dropCrLf_length_le c rest
    simp only [List.length_cons]; omega
  · simp only [List.length_cons]; omega

/-- Python `str.splitlines()` (keepends = False) over character lists. -/
def pySplitlines (cs : List Char) : List (List Char) := pySLA cs []

/-- Buffer creation, `editor.py` lines 30–37: the file content split into
lines, replaced by a single empty line when the result is empty. -/
def loadFromText (cs : List Char) : List (List Char) :=
  if (pySplitlines cs).isEmpty then [[]] else pySplitlines cs

/-- Serialisation on save, `editor.py` line 141: join lines with a newline. -/
def serialize (lines : List (List Char)) : List Char :=
  List.intercalate ['\n'] lines

/-! ### Integer conversion (`graph.py` line 80: `int(x)`) -/

/-- Python `int()` applied to a real number: truncation toward zero. -/
def pyTrunc (q : ℚ) : ℤ :=
  if 0 ≤ q then ⌊q⌋ else -⌊-q⌋

/-! ### Editor state (`editor.py`, `editing_screen` lines 42–218)

The ambient mutable variables `buffer`, `y`, `x`, `offset` of the editing
loop, as one state value.  Key dispatch follows lines 155–212; the
always-run scroll adjustment follows lines 214–218 (the terminal is
assumed to have `height ≥ 2`, so Python's `height - 2` agrees with
natural subtraction). -/

structure EditorState where
  buffer : List (List Char)
  y : Nat
  x : Nat
  offset : Nat
  deriving Repr, DecidableEq

/-- The key events handled by the editing loop's dispatch. -/
inductive Key where
  | enter | tab | backspace | left | right | up | down | save
  | char (code : Nat)
  deriving Repr, DecidableEq

/-- Key dispatch of `editing_screen` (`editor.py` lines 137–212), minus
file IO: `save` writes the buffer to disk and leaves the editing state
unchanged. -/
def handleKey (k : Key) (st : EditorState) : EditorState :=
  let line := st.buffer.getD st.y []
  match k with
  | .save => st
  | .enter =>
    { st with
      buffer := (st.buffer.set st.y (line.take st.x)).insertIdx (st.y + 1) (line.drop st.x)
      y := st.y + 1
      x := 0 }
  | .tab =>
    { st with
      buffer := st.buffer.set st.y (line.take st.x ++ [' ', ' ', ' ', ' '] ++ line.drop st.x)
      x := st.x + 4 }
  | .backspace =>
    if 0 < st.x then
      { st with
        buffer := st.buffer.set st.y (line.take (st.x - 1) ++ line.drop st.x)
        x := st.x - 1 }
    else if 0 < st.y then
      let prev := st.buffer.getD (st.y - 1) []
      { st with
        buffer := (st.buffer.set (st.y - 1) (prev ++ line)).eraseIdx st.y
        y := st.y - 1
        x := prev.length }
    else st
  | .left =>
    if 0 < st.x then { st with x := st.x - 1 }
    else if 0 < st.y then
      { st with y := st.y - 1, x := (st.buffer.getD (st.y - 1) []).length }
    else st
  | .right =>
    if st.x < line.length then { st with x := st.x + 1 }
    else if st.y < st.buffer.length - 1 then { st with y := st.y + 1, x := 0 }
    else st
  | .up =>
    if 0 < st.y then
      { st with y := st.y - 1, x := min st.x (st.buffer.getD (st.y - 1) []).length }
    else { st with x := 0 }
  | .down =>
    if st.y < st.buffer.length - 1 then
      { st with y := st.y + 1, x := min st.x (st.buffer.getD (st.y + 1) []).length }
    else { st with x := line.length }
  | .char code =>
    if 32 ≤ code ∧ code ≤ 126 then
      { st with
        buffer := st.buffer.set st.y (line.take st.x ++ [Char.ofNat code] ++ line.drop st.x)
        x := st.x + 1 }
    else st

/-- Scroll-offset adjustment run after every key (`editor.py` 214–218). -/
def scrollAdjust (height : Nat) (st : EditorState) : EditorState :=
  if st.y < st.offset then { st with offset := st.y }
  else if st.offset + (height - 2) ≤ st.y then { st with offset := st.y - (height - 2) }
  else st

/-- Cursor part of the spec's `TextBuffer` invariant: nonempty buffer,
`0 ≤ row < len(lines)` and `0 ≤ col ≤ len(lines[row])`. -/
def CursorInv (st : EditorState) : Prop :=
  st.buffer ≠ [] ∧ st.y < st.buffer.length ∧ st.x ≤ (st.buffer.getD st.y []).length

/-- Full state invariant: cursor invariant plus `0 ≤ offset ≤ row`. -/
def Invariant (st : EditorState) : Prop :=
  CursorInv st ∧ st.offset ≤ st.y

/-! ### Note graph (`link_utils.py`)

Python dicts are modelled as association lists in insertion order;
note names and paths are character lists. -/

abbrev NoteName := List Char

/-- Association-list lookup, modelling Python `d[k]`. -/
def lookupA {α : Type} : List (NoteName × α) → NoteName → Option α
  | [], _ => none
  | p :: rest, k => if p.1 = k then some p.2 else lookupA rest k

/-- Key membership, modelling Python `k in d`. -/
def isKey {α : Type} (d : List (NoteName × α)) (k : NoteName) : Prop :=
  (lookupA d k).isSome

instance {α : Type} (d : List (NoteName × α)) (k : NoteName) : Decidable (isKey d k) := by
  unfold isKey; infer_instance

/-- Python dict assignment `d[k] = v`: replace in place, or append. -/
def dictInsert {α : Type} (d : List (NoteName × α)) (k : NoteName) (v : α) :
    List (NoteName × α) :=
  if isKey d k then d.map (fun p => if p.1 = k then (k, v) else p) else d ++ [(k, v)]

/-- One `incoming[tgt].append(src)` step guarded by `tgt in incoming`
(`link_utils.py` lines 49–51). -/
def appendIncoming (inc : List (NoteName × List NoteName)) (tgt src : NoteName) :
    List (NoteName × List NoteName) :=
  inc.map fun p => if p.1 = tgt then (p.1, p.2 ++ [src]) else p

/-- Reverse-link map construction (`link_utils.py` lines 44–52). -/
def build_incoming_links (graph : List (NoteName × List NoteName)) :
    List (NoteName × List NoteName) :=
  let incoming := graph.map fun p => (p.1, ([] : List NoteName))
  graph.foldl (fun inc e => e.2.foldl (fun inc tgt => appendIncoming inc tgt e.1) inc) incoming

/-- Outcome of Python `open(path).read()`: success, `FileNotFoundError`,
or any other `OSError`/`UnicodeDecodeError` (which the source does not
catch). -/
inductive ReadResult where
  | ok (text : List Char)
  | fileNotFound
  | otherError
  deriving Repr, DecidableEq

/-- Link extraction for one file (`link_utils.py` lines 18–26): only
`FileNotFoundError` is caught and degraded to no links; any other
exception propagates (modelled as `Except.error`). -/
def extract_links_from_file (read : List Char → ReadResult) (path : List Char) :
    Except Unit (List NoteName) :=
  match read path with
  | .ok text => .ok (extractLinks text)
  | .fileNotFound => .ok []
  | .otherError => .error ()

/-- Python `os.path.join(dirpath, file)`. -/
def pathJoin (dirpath file : List Char) : List Char :=
  dirpath ++ '/' :: file

/-- Python `file.endswith(".md")`. -/
def endsWithMd (file : List Char) : Bool :=
  decide (['.', 'm', 'd'] <:+ file)

/-- Body of the inner loop of `build_note_graph` (`link_utils.py` 34–40)
for one directory entry. -/
def processFile (read : List Char → ReadResult)
    (acc : List (NoteName × List NoteName) × List (NoteName × List Char))
    (dirpath file : List Char) :
    Except Unit (List (NoteName × List NoteName) × List (NoteName × List Char)) :=
  if endsWithMd file then
    match extract_links_from_file read (pathJoin dirpath file) with
    | .error e => .error e
    | .ok links =>
      .ok (dictInsert acc.1 (file.take (file.length - 3)) links,
           dictInsert acc.2 (file.take (file.length - 3)) (pathJoin dirpath file))
  else .ok acc

/-- Vault scan (`link_utils.py` lines 30–41): `walk` is the sequence of
`(dirpath, files)` pairs produced by `os.walk(root_dir)`. -/
def build_note_graph (read : List Char → ReadResult)
    (walk : List (List Char × List (List Char))) :
    Except Unit (List (NoteName × List NoteName) × List (NoteName × List Char)) :=
  walk.foldlM
    (fun acc entry => entry.2.foldlM (fun acc file => processFile read acc entry.1 file) acc)
    ([], [])

/-! ### Force-directed layout (`graph.py` lines 19–80)

Python floats become rationals; `math.sqrt` and the two
`random.randint` draws are abstracted into an environment, since their
values never affect the clamping structure of the algorithm.  Positions and
displacements are total functions on names; only values at the graph's
keys are ever read. -/

structure LayoutEnv where
  sqrtA : ℚ → ℚ
  randX : NoteName → ℤ
  randY : NoteName → ℤ

/-- Pointwise displacement update, modelling `disp[v][0] += ...` and
`disp[v][1] += ...`. -/
def updateFn (f : NoteName → ℚ × ℚ) (v : NoteName) (d : ℚ × ℚ) : NoteName → ℚ × ℚ :=
  fun w => if w = v then ((f w).1 + d.1, (f w).2 + d.2) else f w

/-- Repulsion accumulation (`graph.py` lines 35–50). -/
def repulsionPass (env : LayoutEnv) (k : ℚ) (pos : NoteName → ℚ × ℚ)
    (nodes : List NoteName) (disp : NoteName → ℚ × ℚ) : NoteName → ℚ × ℚ :=
  nodes.foldl
    (fun d v =>
      nodes.foldl
        (fun d u =>
          if u ≠ v then
            let dx := (pos v).1 - (pos u).1
            let dy := (pos v).2 - (pos u).2
            let dist := env.sqrtA (dx * dx + dy * dy) + 1 / 100
            let force := if dist < 2 then 5 * (2 - dist) else 2 / 100 * (k * k) / dist
            updateFn d v (dx / dist * force, dy / dist * force)
          else d)
        d)
    disp

/-- Attraction accumulation (`graph.py` lines 53–65). -/
def attractionPass (env : LayoutEnv) (k : ℚ) (pos : NoteName → ℚ × ℚ)
    (graph : List (NoteName × List NoteName)) (disp : NoteName → ℚ × ℚ) :
    NoteName → ℚ × ℚ :=
  graph.foldl
    (fun d e =>
      e.2.foldl
        (fun d u =>
          if isKey graph u then
            let v := e.1
            let dx := (pos v).1 - (pos u).1
            let dy := (pos v).2 - (pos u).2
            let dist := env.sqrtA (dx * dx + dy * dy) + 1 / 100
            let force := dist * dist / k
            updateFn (updateFn d v (-(dx / dist * force), -(dy / dist * force))) u
              (dx / dist * force, dy / dist * force)
          else d)
        d)
    disp

/-- Python clamp `min(hi, max(lo, q))`. -/
def clampQ (lo hi q : ℚ) : ℚ := min hi (max lo q)

/-- Unit-step move and clamp for one node (`graph.py` lines 68–77). -/
def moveClamp (env : LayoutEnv) (w h : ℤ) (disp pos : NoteName → ℚ × ℚ) :
    NoteName → ℚ × ℚ :=
  fun v =>
    let dx := (disp v).1
    let dy := (disp v).2
    let dist := env.sqrtA (dx * dx + dy * dy)
    let p := pos v
    let p1 := if 0 < dist then (p.1 + dx / dist, p.2 + dy / dist) else p
    (clampQ 1 ((w : ℚ) - 2) p1.1, clampQ 1 ((h : ℚ) - 3) p1.2)

/-- One simulation round (`graph.py` lines 30–77). -/
def layoutRound (env : LayoutEnv) (graph : List (NoteName × List NoteName))
    (w h : ℤ) (k : ℚ) (pos : NoteName → ℚ × ℚ) : NoteName → ℚ × ℚ :=
  let nodes := graph.map Prod.fst
  let disp1 := repulsionPass env k pos nodes (fun _ => (0, 0))
  let disp2 := attractionPass env k pos graph disp1
  moveClamp env w h disp2 pos

/-- Iterated rounds. -/
def layoutIter (env : LayoutEnv) (graph : List (NoteName × List NoteName))
    (w h : ℤ) (k : ℚ) : Nat → (NoteName → ℚ × ℚ) → NoteName → ℚ × ℚ
  | 0, pos => pos
  | n + 1, pos => layoutIter env graph w h k n (layoutRound env graph w h k pos)

/-! ### Generic list helpers -/

theorem getD_set_self {α : Type} (d : α) :
    ∀ (l : List α) (i : Nat) (v : α), i < l.length → (l.set i v).getD i d = v
  | [], i, v, h => absurd h (by simp)
  | a :: l, 0, v, _ => rfl
  | a :: l, i + 1, v, h => getD_set_self d l i v (Nat.lt_of_succ_lt_succ h)

theorem getD_set_ne {α : Type} (d : α) :
    ∀ (l : List α) (i j : Nat) (v : α), i ≠ j → (l.set i v).getD j d = l.getD j d
  | [], _, _, _, _ => by simp
  | a :: l, 0, 0, v, h => absurd rfl h
  | a :: l, 0, j + 1, v, _ => rfl
  | a :: l, i + 1, 0, v, _ => rfl
  | a :: l, i + 1, j + 1, v, h =>
    getD_set_ne d l i j v (fun hij => h (by omega))

theorem set_getD_self {α : Type} (d : α) :
    ∀ (l : List α) (i : Nat), i < l.length → l.set i (l.getD i d) = l
  | [], i, h => absurd h (by simp)
  | a :: l, 0, _ => rfl
  | a :: l, i + 1, h => by
    simpa using set_getD_self d l i (Nat.lt_of_succ_lt_succ h)

theorem getD_insertIdx_succ_self {α : Type} (d : α) :
    ∀ (l : List α) (i : Nat) (v : α), i < l.length →
      (l.insertIdx (i + 1) v).getD (i + 1) d = v
  | [], i, v, h => absurd h (by simp)
  | a :: l, 0, v, _ => rfl
  | a :: l, i + 1, v, h =>
    getD_insertIdx_succ_self d l i v (Nat.lt_of_succ_lt_succ h)

theorem getD_insertIdx_succ_lt {α : Type} (d : α) :
    ∀ (l : List α) (i j : Nat) (v : α), j ≤ i →
      (l.insertIdx (i + 1) v).getD j d = l.getD j d
  | [], i, j, v, _ => by cases j <;> simp [List.insertIdx]
  | a :: l, i, 0, v, _ => rfl
  | a :: l, i + 1, j + 1, v, h =>
    getD_insertIdx_succ_lt d l i j v (Nat.le_of_succ_le_succ h)

theorem getD_eraseIdx_lt {α : Type} (d : α) :
    ∀ (l : List α) (i j : Nat), j < i → (l.eraseIdx i).getD j d = l.getD j d
  | [], _, _, _ => by simp
  | a :: l, 0, j, h => absurd h (by omega)
  | a :: l, i + 1, 0, _ => rfl
  | a :: l, i + 1, j + 1, h =>
    getD_eraseIdx_lt d l i j (Nat.lt_of_succ_lt_succ h)

theorem set_insertIdx_succ_comm {α : Type} :
    ∀ (l : List α) (i : Nat) (a b : α),
      (l.insertIdx (i + 1) a).set i b = (l.set i b).insertIdx (i + 1) a
  | [], i, a, b => by cases i <;> simp [List.insertIdx]
  | c :: l, 0, a, b => rfl
  | c :: l, i + 1, a, b => by
    simpa [List.insertIdx_succ_cons] using set_insertIdx_succ_comm l i a b

/-- Raw (pre-conversion) final positions of `force_layout`. -/
def force_layout_raw (env : LayoutEnv) (graph : List (NoteName × List NoteName))
    (w h : ℤ) (iterations : Nat) : NoteName → ℚ × ℚ :=
  let init : NoteName → ℚ × ℚ := fun v => ((env.randX v : ℚ), (env.randY v : ℚ))
  let k := env.sqrtA (((w * h : ℤ) : ℚ) / ((graph.length : ℚ) + 1))
  layoutIter env graph w h k iterations init

/-- Force layout (`graph.py` lines 19–80): integer positions, one entry
per graph key, default 200 iterations. -/
def force_layout (env : LayoutEnv) (graph : List (NoteName × List NoteName))
    (w h : ℤ) (iterations : Nat) : List (NoteName × (ℤ × ℤ)) :=
  let final := force_layout_raw env graph w h iterations
  graph.map fun e => (e.1, (pyTrunc (final e.1).1, pyTrunc (final e.1).2))

instance (st : EditorState) : Decidable (CursorInv st) := by
  unfold CursorInv; infer_instance

instance (st : EditorState) : Decidable (Invariant st) := by
  unfold Invariant; infer_instance

/-- Every key operation preserves the cursor part of the invariant. -/
theorem cursorInv_handleKey (k : Key) (st : EditorState) (h : CursorInv st) :
    CursorInv (handleKey k st) := by
  obtain ⟨buf, y, x, off⟩ := st
  obtain ⟨hne, hy, hx⟩ := h
  simp only at hne hy hx
  have hlen0 : 0 < buf.length := List.length_pos.mpr hne
  cases k with
  | save => exact ⟨hne, hy, hx⟩
  | enter =>
    have hstep : y + 1 ≤ (buf.set y ((buf.getD y []).take x)).length := by
      rw [List.length_set]; omega
    have hlen : ((buf.set y ((buf.getD y []).take x)).insertIdx (y + 1)
        ((buf.getD y []).drop x)).length = buf.length + 1 := by
      rw [List.length_insertIdx _ _ hstep, List.length_set]
    simp only [handleKey, CursorInv]
    exact ⟨List.ne_nil_of_length_pos (by rw [hlen]; omega),
      by rw [hlen]; omega, Nat.zero_le _⟩
  | tab =>
    simp only [handleKey, CursorInv]
    refine ⟨List.ne_nil_of_length_pos (by rw [List.length_set]; omega),
      by rw [List.length_set]; exact hy, ?_⟩
    rw [getD_set_self [] buf y _ hy, List.length_append, List.length_append,
      List.length_take, List.length_drop]
    simp only [List.length_cons, List.length_nil]
    omega
  | backspace =>
    simp only [handleKey]
    split_ifs with h1 h2
    · simp only [CursorInv]
      refine ⟨List.ne_nil_of_length_pos (by rw [List.length_set]; omega),
        by rw [List.length_set]; exact hy, ?_⟩
      rw [getD_set_self [] buf y _ hy, List.length_append,
        List.length_take, List.length_drop]
      omega
    · have hylen : y < (buf.set (y - 1) ((buf.getD (y - 1) []) ++ buf.getD y [])).length := by
        rw [List.length_set]; exact hy
      have herase : ((buf.set (y - 1) ((buf.getD (y - 1) []) ++ buf.getD y [])).eraseIdx y).length
          = buf.length - 1 := by
        rw [List.length_eraseIdx_of_lt hylen, List.length_set]
      simp only [CursorInv]
      refine ⟨List.ne_nil_of_length_pos (by rw [herase]; omega),
        by rw [herase]; omega, ?_⟩
      rw [getD_eraseIdx_lt [] _ y (y - 1) (by omega),
        getD_set_self [] buf (y - 1) _ (by omega), List.length_append]
      omega
    · exact ⟨hne, hy, hx⟩
  | left =>
    simp only [handleKey]
    split_ifs with h1 h2
    · exact ⟨hne, hy, le_trans (Nat.sub_le _ _) hx⟩
    · exact ⟨hne, Nat.lt_of_le_of_lt (Nat.sub_le _ _) hy, le_refl _⟩
    · exact ⟨hne, hy, hx⟩
  | right =>
    simp only [handleKey]
    split_ifs with h1 h2
    · exact ⟨hne, hy, Nat.succ_le_of_lt h1⟩
    · exact ⟨hne, by show y + 1 < buf.length; omega, Nat.zero_le _⟩
    · exact ⟨hne, hy, hx⟩
  | up =>
    simp only [handleKey]
    split_ifs with h1
    · exact ⟨hne, Nat.lt_of_le_of_lt (Nat.sub_le _ _) hy, Nat.min_le_right _ _⟩
    · exact ⟨hne, hy, Nat.zero_le _⟩
  | down =>
    simp only [handleKey]
    split_ifs with h1
    · exact ⟨hne, by show y + 1 < buf.length; omega, Nat.min_le_right _ _⟩
    · exact ⟨hne, hy, le_refl _⟩
  | char code =>
    simp only [handleKey]
    split_ifs with h1
    · simp only [CursorInv]
      refine ⟨List.ne_nil_of_length_pos (by rw [List.length_set]; omega),
        by rw [List.length_set]; exact hy, ?_⟩
      rw [getD_set_self [] buf y _ hy, List.length_append, List.length_append,
        List.length_take, List.length_drop]
      simp only [List.length_cons, List.length_nil]
      omega
    · exact ⟨hne, hy, hx⟩

/-- The always-run scroll adjustment restores `offset ≤ row` and keeps
the cursor invariant. -/
theorem scrollAdjust_invariant (height : Nat) (st : EditorState)
    (h : CursorInv st) : Invariant (scrollAdjust height st) := by
  obtain ⟨buf, y, x, off⟩ := st
  obtain ⟨hne, hy, hx⟩ := h
  simp only at hne hy hx
  dsimp only [scrollAdjust]
  split_ifs with h1 h2
  · exact ⟨⟨hne, hy, hx⟩, le_refl _⟩
  · exact ⟨⟨hne, hy, hx⟩, Nat.sub_le _ _⟩
  · exact ⟨⟨hne, hy, hx⟩, by show off ≤ y; omega⟩

/-! ### Claim theorems -/

/-- C7: splitting the current line at the cursor (Enter) and immediately
pressing backspace at the resulting cursor position restores the original
line sequence and the original cursor row and column (here: the whole
editor state). -/
theorem enter_backspace_inverse (st : EditorState)
    (hy : st.y < st.buffer.length)
    (hx : st.x ≤ (st.buffer.getD st.y []).length) :
    handleKey Key.backspace (handleKey Key.enter st) = st := by
  obtain ⟨buf, y, x, off⟩ := st
  simp only at hy hx
  set line := buf.getD y [] with hline
  have hset : (buf.set y (line.take x)).length = buf.length := by simp
  have h1 : ((buf.set y (line.take x)).insertIdx (y + 1) (line.drop x)).getD (y + 1) [] =
      line.drop x := by
    exact getD_insertIdx_succ_self [] _ y _ (by omega)
  have h2 : ((buf.set y (line.take x)).insertIdx (y + 1) (line.drop x)).getD y [] =
      line.take x := by
    rw [getD_insertIdx_succ_lt [] _ y y _ (le_refl y)]
    exact getD_set_self [] buf y _ hy
  have hxlen : (line.take x).length = x := by
    rw [List.length_take]; omega
  simp only [handleKey]
  rw [if_neg (by omega), if_pos (by omega)]
  simp only [Nat.add_sub_cancel]
  rw [EditorState.mk.injEq]
  rw [h1, h2]
  refine ⟨?_, rfl, hxlen, rfl⟩
  rw [List.take_append_drop, set_insertIdx_succ_comm, List.set_set,
    List.eraseIdx_insertIdx, hline, set_getD_self [] buf y hy]

/-! ### Lemmas about `pySplitlines` -/

theorem pySLA_nil (acc : List Char) :
    pySLA [] acc = if acc.isEmpty then [] else [acc.reverse] := by
  simp only [pySLA]

theorem pySLA_cons (c : Char) (rest acc : List Char) :
    pySLA (c :: rest) acc =
      if isLineBoundary c then acc.reverse :: pySLA (dropCrLf c rest) []
      else pySLA rest (c :: acc) := by
  simp only [pySLA]

theorem pySLA_append (a : List Char) :
    ∀ (b acc : List Char), (∀ c ∈ a, isLineBoundary c = false) →
      pySLA (a ++ b) acc = pySLA b (a.reverse ++ acc) := by
  induction a with
  | nil => intro b acc _; simp
  | cons c a ih =>
    intro b acc h
    have hc : isLineBoundary c = false := h c (List.mem_cons_self c a)
    rw [List.cons_append, pySLA_cons, if_neg (by simp [hc]),
      ih b (c :: acc) (fun d hd => h d (List.mem_cons_of_mem c hd))]
    simp

theorem pySLA_ne_nil (cs : List Char) :
    ∀ acc : List Char, cs ≠ [] ∨ acc ≠ [] → pySLA cs acc ≠ [] := by
  induction cs with
  | nil =>
    intro acc h
    rcases h with h | h
    · exact absurd rfl h
    · rw [pySLA_nil, if_neg (by simpa using h)]
      simp
  | cons c rest ih =>
    intro acc _
    rw [pySLA_cons]
    by_cases hb : isLineBoundary c
    · simp [hb]
    · rw [if_neg (by simp [hb])]
      exact ih (c :: acc) (Or.inr (by simp))

theorem intercalate_nl_cons (x y : List Char) (l : List (List Char)) :
    List.intercalate ['\n'] (x :: y :: l) = x ++ '\n' :: List.intercalate ['\n'] (y :: l) := by
  simp [List.intercalate, List.intersperse_cons_cons]

theorem pySLA_join (cs : List Char) :
    ∀ acc : List Char,
      (∀ c ∈ cs, isLineBoundary c = true → c = '\n') →
      cs.getLast? ≠ some '\n' →
      List.intercalate ['\n'] (pySLA cs acc) = acc.reverse ++ cs := by
  induction cs with
  | nil =>
    intro acc _ _
    rw [pySLA_nil]
    by_cases h : acc.isEmpty
    · rw [if_pos h]
      have : acc = [] := by simpa using h
      simp [this, List.intercalate]
    · rw [if_neg h]
      simp [List.intercalate]
  | cons c rest ih =>
    intro acc hb ht
    by_cases hc : isLineBoundary c
    · have hcn : c = '\n' := hb c (List.mem_cons_self _ _) hc
      subst hcn
      have hrest : rest ≠ [] := by
        intro hr
        subst hr
        simp at ht
      rw [pySLA_cons, if_pos hc]
      have hdrop : dropCrLf '\n' rest = rest := by
        simp [dropCrLf]
      rw [hdrop]
      have ht' : rest.getLast? ≠ some '\n' := by
        obtain ⟨r0, rtl, rfl⟩ := List.exists_cons_of_ne_nil hrest
        simpa [List.getLast?_cons_cons] using ht
      obtain ⟨z, L, hzl⟩ : ∃ z L, pySLA rest [] = z :: L := by
        rcases hpsla : pySLA rest [] with _ | ⟨z, L⟩
        · exact absurd hpsla (pySLA_ne_nil rest [] (Or.inl hrest))
        · exact ⟨z, L, rfl⟩
      rw [hzl, intercalate_nl_cons, ← hzl,
        ih [] (fun d hd h => hb d (List.mem_cons_of_mem _ hd) h) ht']
      simp
    · rw [pySLA_cons, if_neg (by simp [hc])]
      have ht' : rest.getLast? ≠ some '\n' := by
        rcases rest with _ | ⟨r0, rtl⟩
        · simp
        · simpa [List.getLast?_cons_cons] using ht
      rw [ih (c :: acc) (fun d hd h => hb d (List.mem_cons_of_mem _ hd) h) ht']
      simp

/-- Lines produced by the splitter contain no line-boundary characters
(in particular no carriage returns). -/
theorem pySLA_no_boundary (n : Nat) :
    ∀ cs acc : List Char, cs.length ≤ n →
      (∀ c ∈ acc, isLineBoundary c = false) →
      ∀ l ∈ pySLA cs acc, ∀ c ∈ l, isLineBoundary c = false := by
  induction n with
  | zero =>
    intro cs acc hlen hacc l hl
    have : cs = [] := by
      cases cs
      · rfl
      · simp at hlen
    subst this
    rw [pySLA_nil] at hl
    split at hl
    · simp at hl
    · simp at hl
      subst hl
      intro c hcl
      exact hacc c (by simpa using hcl)
  | succ n ih =>
    intro cs acc hlen hacc l hl
    cases cs with
    | nil =>
      rw [pySLA_nil] at hl
      split at hl
      · simp at hl
      · simp at hl
        subst hl
        intro c hcl
        exact hacc c (by simpa using hcl)
    | cons c rest =>
      rw [pySLA_cons] at hl
      by_cases hb : isLineBoundary c
      · rw [if_pos hb] at hl
        rcases List.mem_cons.mp hl with hl1 | hl2
        · subst hl1
          intro d hdl
          exact hacc d (by simpa using hdl)
        · have hdl : (dropCrLf c rest).length ≤ n := by
            have := dropCrLf_length_le c rest
            simp at hlen
            omega
          exact ih (dropCrLf c rest) [] hdl (by simp) l hl2
      · rw [if_neg (by simp [hb])] at hl
        refine ih rest (c :: acc) (by simp at hlen; omega) ?_ l hl
        intro d hd
        rcases List.mem_cons.mp hd with rfl | hd2
        · simpa using hb
        · exact hacc d hd2

/-- Serialising the loaded buffer reproduces the content when the only
line boundaries in it are interior newlines. -/
theorem serialize_loadFromText (cs : List Char)
    (hb : ∀ c ∈ cs, isLineBoundary c = true → c = '\n')
    (ht : cs.getLast? ≠ some '\n') :
    serialize (loadFromText cs) = cs := by
  unfold loadFromText pySplitlines serialize
  by_cases h : (pySLA cs []).isEmpty
  · rw [if_pos h]
    have hcs : cs = [] := by
      by_contra hne
      exact pySLA_ne_nil cs [] (Or.inl hne) (by simpa using h)
    subst hcs
    simp [List.intercalate]
  · rw [if_neg h]
    simpa using pySLA_join cs [] hb ht

/-- C7 witness: the inverse law at the buffer `["abc"]`, row 0, column 1. -/
theorem enter_backspace_inverse_witness :
    (⟨[['a', 'b', 'c']], 0, 1, 0⟩ : EditorState).y <
      (⟨[['a', 'b', 'c']], 0, 1, 0⟩ : EditorState).buffer.length ∧
    handleKey Key.backspace (handleKey Key.enter ⟨[['a', 'b', 'c']], 0, 1, 0⟩) =
      (⟨[['a', 'b', 'c']], 0, 1, 0⟩ : EditorState) :=
  ⟨by decide, enter_backspace_inverse ⟨[['a', 'b', 'c']], 0, 1, 0⟩ (by decide) (by decide)⟩

/-- C8 (amended): every key operation preserves the cursor invariant
(nonempty buffer, `row < len(lines)`, `col ≤ len(lines[row])`), and the
operation followed by the always-run scroll adjustment also restores
`0 ≤ offset ≤ row`; the offset bound alone is not preserved by the bare
row-decreasing operations (see the counterexample). -/
theorem editor_step_invariant (k : Key) (st : EditorState) (height : Nat)
    (hinv : Invariant st) (hh : 2 ≤ height) :
    CursorInv (handleKey k st) ∧ Invariant (scrollAdjust height (handleKey k st)) :=
  ⟨cursorInv_handleKey k st hinv.1,
   scrollAdjust_invariant height _ (cursorInv_handleKey k st hinv.1)⟩

/-- C8 counterexample: from the invariant state with buffer
`["a", "b"]`, cursor `(1, 0)`, offset 1, a bare backspace (line join)
moves the cursor to row 0 while the offset stays 1, breaking
`offset ≤ row`; so not every listed operation alone preserves the
claimed invariant. -/
theorem editor_step_invariant_cex :
    Invariant ⟨[['a'], ['b']], 1, 0, 1⟩ ∧
    ¬ Invariant (handleKey Key.backspace ⟨[['a'], ['b']], 1, 0, 1⟩) := by
  decide

/-- C8 witness: the amended statement at the same state, with the scroll
adjustment for a height-2 terminal restoring the invariant. -/
theorem editor_step_invariant_witness :
    Invariant ⟨[['a'], ['b']], 1, 0, 1⟩ ∧ 2 ≤ 2 ∧
    CursorInv (handleKey Key.backspace ⟨[['a'], ['b']], 1, 0, 1⟩) ∧
    Invariant (scrollAdjust 2 (handleKey Key.backspace ⟨[['a'], ['b']], 1, 0, 1⟩)) :=
  ⟨by decide, by decide,
   (editor_step_invariant Key.backspace ⟨[['a'], ['b']], 1, 0, 1⟩ 2 (by decide) (by decide)).1,
   (editor_step_invariant Key.backspace ⟨[['a'], ['b']], 1, 0, 1⟩ 2 (by decide) (by decide)).2⟩

/-- C9: cursor motion — left at column 0 wraps to the end of the
previous line and is a no-op at (0,0); right at end-of-line wraps to
column 0 of the next line and is a no-op at buffer end; up and down
clamp the column to the target line's length; up at row 0 snaps the
column to 0; down at the last row snaps the column to the line end. -/
theorem cursor_motion (st : EditorState) :
    (0 < st.x → handleKey Key.left st = { st with x := st.x - 1 }) ∧
    (st.x = 0 → 0 < st.y → handleKey Key.left st =
      { st with y := st.y - 1, x := (st.buffer.getD (st.y - 1) []).length }) ∧
    (st.x = 0 → st.y = 0 → handleKey Key.left st = st) ∧
    (st.x < (st.buffer.getD st.y []).length →
      handleKey Key.right st = { st with x := st.x + 1 }) ∧
    (st.x = (st.buffer.getD st.y []).length → st.y < st.buffer.length - 1 →
      handleKey Key.right st = { st with y := st.y + 1, x := 0 }) ∧
    (st.x = (st.buffer.getD st.y []).length → st.y = st.buffer.length - 1 →
      handleKey Key.right st = st) ∧
    (0 < st.y → handleKey Key.up st =
      { st with y := st.y - 1, x := min st.x (st.buffer.getD (st.y - 1) []).length }) ∧
    (st.y = 0 → handleKey Key.up st = { st with x := 0 }) ∧
    (st.y < st.buffer.length - 1 → handleKey Key.down st =
      { st with y := st.y + 1, x := min st.x (st.buffer.getD (st.y + 1) []).length }) ∧
    (st.y = st.buffer.length - 1 → handleKey Key.down st =
      { st with x := (st.buffer.getD st.y []).length }) := by
  obtain ⟨buf, y, x, off⟩ := st
  dsimp only
  refine ⟨?_, ?_, ?_, ?_, ?_, ?_, ?_, ?_, ?_, ?_⟩
  · intro h1
    simp only [handleKey]
    rw [if_pos h1]
  · intro h1 h2
    simp only [handleKey]
    rw [if_neg (by omega), if_pos h2]
  · intro h1 h2
    simp only [handleKey]
    rw [if_neg (by omega), if_neg (by omega)]
  · intro h1
    simp only [handleKey]
    rw [if_pos h1]
  · intro h1 h2
    simp only [handleKey]
    rw [if_neg (by omega), if_pos h2]
  · intro h1 h2
    simp only [handleKey]
    rw [if_neg (by omega), if_neg (by omega)]
  · intro h1
    simp only [handleKey]
    rw [if_pos h1]
  · intro h1
    simp only [handleKey]
    rw [if_neg (by omega)]
  · intro h1
    simp only [handleKey]
    rw [if_pos h1]
  · intro h1
    simp only [handleKey]
    rw [if_neg (by omega)]

/-- C9 witness: on the single-line buffer `"hello"` with the cursor at
column 5, five left presses reach column 0 and a sixth is a no-op. -/
theorem cursor_motion_witness :
    (handleKey Key.left)^[5] ⟨[['h', 'e', 'l', 'l', 'o']], 0, 5, 0⟩ =
      (⟨[['h', 'e', 'l', 'l', 'o']], 0, 0, 0⟩ : EditorState) ∧
    handleKey Key.left ⟨[['h', 'e', 'l', 'l', 'o']], 0, 0, 0⟩ =
      (⟨[['h', 'e', 'l', 'l', 'o']], 0, 0, 0⟩ : EditorState) :=
  ⟨by decide,
   (cursor_motion ⟨[['h', 'e', 'l', 'l', 'o']], 0, 0, 0⟩).2.2.1 rfl rfl⟩

/-- C3 counterexample: the coordinate conversion of `force_layout` is
Python `int()`, which maps 5.9 to 5, not to the nearest integer 6. -/
theorem force_layout_round_cex :
    pyTrunc ((59 : ℚ) / 10) = 5 ∧ round ((59 : ℚ) / 10) = 6 := by
  constructor
  · rw [pyTrunc, if_pos (by norm_num)]
    norm_num [Int.floor_eq_iff]
  · rw [round_eq]
    norm_num [Int.floor_eq_iff]

/-- C3 (amended): `force_layout` converts each final coordinate with
Python `int()`, i.e. truncation toward zero, which on the nonnegative
coordinates produced by the layout is the floor, not the nearest
integer. -/
theorem force_layout_trunc (env : LayoutEnv) (graph : List (NoteName × List NoteName))
    (w h : ℤ) (iterations : Nat) :
    force_layout env graph w h iterations =
      graph.map (fun e => (e.1,
        (pyTrunc (force_layout_raw env graph w h iterations e.1).1,
         pyTrunc (force_layout_raw env graph w h iterations e.1).2))) ∧
    ∀ q : ℚ, 0 ≤ q → pyTrunc q = ⌊q⌋ := by
  refine ⟨rfl, ?_⟩
  intro q hq
  rw [pyTrunc, if_pos hq]

/-- C3 witness: truncation at the concrete coordinate 5.9 gives the
floor 5. -/
theorem force_layout_trunc_witness :
    (0 : ℚ) ≤ 59 / 10 ∧ pyTrunc ((59 : ℚ) / 10) = ⌊(59 : ℚ) / 10⌋ :=
  ⟨by norm_num,
   (force_layout_trunc ⟨fun _ => 0, fun _ => 1, fun _ => 1⟩ [] 3 4 0).2 _ (by norm_num)⟩

/-- C4 counterexample: the buffer loader uses Python `splitlines`, so a
bare carriage return in `"a\rb"` acts as a line separator and is not
preserved inside the resulting lines, contradicting split-only-at-`\n`
with `\r` kept as literal content. -/
theorem loadFromText_cr_cex :
    loadFromText ['a', '\r', 'b'] = [['a'], ['b']] ∧
    loadFromText ['a', '\r', 'b'] ≠ [['a', '\r', 'b']] := by
  have h : loadFromText ['a', '\r', 'b'] = [['a'], ['b']] := by
    simp [loadFromText, pySplitlines, pySLA, dropCrLf, isLineBoundary]
  exact ⟨h, by rw [h]; decide⟩

/-- C4 (amended): `loadFromText` splits the content at every Python
line boundary — `\n`, lone `\r`, and `\r\n` as a single boundary — with
an empty result becoming one empty line, and line-boundary characters
(in particular carriage returns) are consumed as separators, never
preserved inside buffer lines. -/
theorem loadFromText_boundaries :
    (loadFromText [] = [[]]) ∧
    (∀ a b : List Char, (∀ c ∈ a, isLineBoundary c = false) →
      pySplitlines (a ++ '\n' :: b) = a :: pySplitlines b) ∧
    (∀ a b : List Char, (∀ c ∈ a, isLineBoundary c = false) →
      b.head? ≠ some '\n' →
      pySplitlines (a ++ '\r' :: b) = a :: pySplitlines b) ∧
    (∀ a b : List Char, (∀ c ∈ a, isLineBoundary c = false) →
      pySplitlines (a ++ '\r' :: '\n' :: b) = a :: pySplitlines b) ∧
    (∀ (cs : List Char), ∀ l ∈ loadFromText cs, ∀ c ∈ l, isLineBoundary c = false) := by
  refine ⟨by simp [loadFromText, pySplitlines, pySLA], ?_, ?_, ?_, ?_⟩
  · intro a b ha
    rw [pySplitlines, pySLA_append a _ [] ha, pySLA_cons, if_pos (by simp [isLineBoundary])]
    have : dropCrLf '\n' b = b := by simp [dropCrLf]
    rw [this]
    simp [pySplitlines]
  · intro a b ha hb
    rw [pySplitlines, pySLA_append a _ [] ha, pySLA_cons, if_pos (by simp [isLineBoundary])]
    have hdr : dropCrLf '\r' b = b := by
      rcases b with _ | ⟨b0, btl⟩
      · simp [dropCrLf]
      · have hb0 : b0 ≠ '\n' := by
          intro hcon
          subst hcon
          exact hb rfl
        unfold dropCrLf
        rw [if_pos rfl]
        split
        next r heq =>
          injection heq with h1 _
          exact absurd h1 hb0
        next => rfl
    rw [hdr]
    simp [pySplitlines]
  · intro a b ha
    rw [pySplitlines, pySLA_append a _ [] ha, pySLA_cons, if_pos (by simp [isLineBoundary])]
    have : dropCrLf '\r' ('\n' :: b) = b := by simp [dropCrLf]
    rw [this]
    simp [pySplitlines]
  · intro cs l hl c hc
    unfold loadFromText at hl
    split at hl
    · simp at hl
      subst hl
      simp at hc
    · exact pySLA_no_boundary cs.length cs [] (le_refl _) (by simp) l hl c hc

/-- C4 witness: splitting `"ab\ncd"` at the newline. -/
theorem loadFromText_boundaries_witness :
    pySplitlines (['a', 'b'] ++ '\n' :: ['c', 'd']) = ['a', 'b'] :: pySplitlines ['c', 'd'] :=
  loadFromText_boundaries.2.1 ['a', 'b'] ['c', 'd'] (by decide)

/-- C5: for text whose only line boundaries are interior `\n`
characters (no `\r`-style boundaries, no trailing newline — the
newline-unaltering case), extracting links from
`serialize (loadFromText text)` gives exactly the links of the original
text. -/
theorem links_roundtrip (cs : List Char)
    (hb : ∀ c ∈ cs, isLineBoundary c = true → c = '\n')
    (ht : cs.getLast? ≠ some '\n') :
    extractLinks (serialize (loadFromText cs)) = extractLinks cs := by
  rw [serialize_loadFromText cs hb ht]

/-- C5 witness: the round trip preserves the links of a two-line note. -/
theorem links_roundtrip_witness :
    extractLinks (serialize (loadFromText "a [[B]]\nsee [[C]]".toList)) =
      extractLinks "a [[B]]\nsee [[C]]".toList :=
  links_roundtrip _ (by decide) (by decide)

/-! ### Lemmas about the incoming-links construction -/

theorem lookupA_mem {α : Type} (d : List (NoteName × α)) (k : NoteName) (v : α) :
    lookupA d k = some v → (k, v) ∈ d := by
  induction d with
  | nil => intro h; simp [lookupA] at h
  | cons p rest ih =>
    intro h
    rw [lookupA] at h
    split_ifs at h with hpk
    · have hv : p.2 = v := by
        injection h
      refine List.mem_cons.mpr (Or.inl ?_)
      cases p
      simp only at hpk hv
      rw [hpk, hv]
    · exact List.mem_cons_of_mem _ (ih h)

theorem isKey_iff_mem {α : Type} (d : List (NoteName × α)) (k : NoteName) :
    isKey d k ↔ k ∈ d.map Prod.fst := by
  induction d with
  | nil =>
    constructor
    · intro h
      exact Bool.noConfusion h
    · intro h
      exact absurd h (List.not_mem_nil k)
  | cons p rest ih =>
    simp only [isKey, lookupA, List.map_cons, List.mem_cons]
    by_cases hpk : p.1 = k
    · rw [if_pos hpk]
      constructor
      · intro _
        exact Or.inl hpk.symm
      · intro _
        rfl
    · rw [if_neg hpk]
      constructor
      · intro h
        exact Or.inr (ih.mp h)
      · intro h
        rcases h with h | h
        · exact absurd h.symm hpk
        · exact ih.mpr h

theorem lookupA_map_val {α β : Type} (f : NoteName → α → β) (d : List (NoteName × α))
    (k : NoteName) :
    lookupA (d.map (fun p => (p.1, f p.1 p.2))) k = (lookupA d k).map (f k) := by
  induction d with
  | nil => simp [lookupA]
  | cons p rest ih =>
    simp only [List.map_cons, lookupA]
    by_cases hpk : p.1 = k
    · rw [if_pos hpk, if_pos hpk, hpk]
      simp
    · rw [if_neg hpk, if_neg hpk, ih]

theorem appendIncoming_eq_map (inc : List (NoteName × List NoteName)) (tgt src : NoteName) :
    appendIncoming inc tgt src =
      inc.map (fun p => (p.1, if p.1 = tgt then p.2 ++ [src] else p.2)) := by
  unfold appendIncoming
  congr 1
  funext p
  by_cases h : p.1 = tgt
  · simp [h]
  · simp [h]

theorem lookupA_appendIncoming (inc : List (NoteName × List NoteName))
    (tgt src t : NoteName) :
    lookupA (appendIncoming inc tgt src) t =
      (lookupA inc t).map (fun l => if t = tgt then l ++ [src] else l) := by
  rw [appendIncoming_eq_map]
  exact lookupA_map_val (fun a b => if a = tgt then b ++ [src] else b) inc t

theorem fst_appendIncoming (inc : List (NoteName × List NoteName)) (tgt src : NoteName) :
    (appendIncoming inc tgt src).map Prod.fst = inc.map Prod.fst := by
  rw [appendIncoming_eq_map, List.map_map]
  rfl

theorem lookupA_foldTargets (src t : NoteName) :
    ∀ (targets : List NoteName) (inc : List (NoteName × List NoteName))
      (l : List NoteName), lookupA inc t = some l →
      ∃ extra, lookupA (targets.foldl (fun inc tgt => appendIncoming inc tgt src) inc) t =
          some (l ++ extra) ∧ (t ∈ targets → src ∈ extra) := by
  intro targets
  induction targets with
  | nil =>
    intro inc l h
    exact ⟨[], by simpa using h, by simp⟩
  | cons tgt ts ih =>
    intro inc l h
    simp only [List.foldl_cons]
    by_cases htt : t = tgt
    · have h1 : lookupA (appendIncoming inc tgt src) t = some (l ++ [src]) := by
        rw [lookupA_appendIncoming, h]
        simp [htt]
      obtain ⟨e2, he2, hmem⟩ := ih _ _ h1
      refine ⟨[src] ++ e2, by simpa [List.append_assoc] using he2, fun _ => by simp⟩
    · have h1 : lookupA (appendIncoming inc tgt src) t = some l := by
        rw [lookupA_appendIncoming, h]
        simp [htt]
      obtain ⟨e2, he2, hmem⟩ := ih _ _ h1
      refine ⟨e2, he2, ?_⟩
      intro hin
      rcases List.mem_cons.mp hin with h' | h'
      · exact absurd h' htt
      · exact hmem h'

theorem fst_foldTargets (src : NoteName) :
    ∀ (targets : List NoteName) (inc : List (NoteName × List NoteName)),
      (targets.foldl (fun inc tgt => appendIncoming inc tgt src) inc).map Prod.fst =
        inc.map Prod.fst := by
  intro targets
  induction targets with
  | nil => intro inc; rfl
  | cons tgt ts ih =>
    intro inc
    simp only [List.foldl_cons]
    rw [ih, fst_appendIncoming]

theorem lookupA_foldEntries (t : NoteName) :
    ∀ (entries : List (NoteName × List NoteName))
      (inc : List (NoteName × List NoteName)) (l : List NoteName),
      lookupA inc t = some l →
      ∃ extra, lookupA (entries.foldl
          (fun inc e => e.2.foldl (fun inc tgt => appendIncoming inc tgt e.1) inc) inc) t =
        some (l ++ extra) := by
  intro entries
  induction entries with
  | nil => intro inc l h; exact ⟨[], by simpa using h⟩
  | cons e es ih =>
    intro inc l h
    simp only [List.foldl_cons]
    obtain ⟨e1, he1, -⟩ := lookupA_foldTargets e.1 t e.2 inc l h
    obtain ⟨e2, he2⟩ := ih _ _ he1
    exact ⟨e1 ++ e2, by simpa [List.append_assoc] using he2⟩

theorem lookupA_foldEntries_hit (t s : NoteName) :
    ∀ (entries : List (NoteName × List NoteName))
      (inc : List (NoteName × List NoteName)) (l ts : List NoteName),
      (s, ts) ∈ entries → t ∈ ts → lookupA inc t = some l →
      ∃ extra, lookupA (entries.foldl
          (fun inc e => e.2.foldl (fun inc tgt => appendIncoming inc tgt e.1) inc) inc) t =
        some (l ++ extra) ∧ s ∈ extra := by
  intro entries
  induction entries with
  | nil => intro inc l ts h; simp at h
  | cons e es ih =>
    intro inc l ts hmem hts h
    simp only [List.foldl_cons]
    rcases List.mem_cons.mp hmem with heq | htail
    · subst heq
      obtain ⟨e1, he1, hsrc⟩ := lookupA_foldTargets s t ts inc l h
      obtain ⟨e2, he2⟩ := lookupA_foldEntries t es _ _ he1
      refine ⟨e1 ++ e2, by simpa [List.append_assoc] using he2, ?_⟩
      exact List.mem_append.mpr (Or.inl (hsrc hts))
    · obtain ⟨e1, he1, -⟩ := lookupA_foldTargets e.1 t e.2 inc l h
      obtain ⟨e2, he2, hs⟩ := ih _ _ ts htail hts he1
      refine ⟨e1 ++ e2, by simpa [List.append_assoc] using he2, ?_⟩
      exact List.mem_append.mpr (Or.inr hs)

theorem fst_build_incoming (graph : List (NoteName × List NoteName)) :
    (build_incoming_links graph).map Prod.fst = graph.map Prod.fst := by
  unfold build_incoming_links
  have step : ∀ (entries inc : List (NoteName × List NoteName)),
      (entries.foldl
        (fun inc e => e.2.foldl (fun inc tgt => appendIncoming inc tgt e.1) inc) inc).map
          Prod.fst = inc.map Prod.fst := by
    intro entries
    induction entries with
    | nil => intro inc; rfl
    | cons e es ih =>
      intro inc
      simp only [List.foldl_cons]
      rw [ih, fst_foldTargets]
  rw [step, List.map_map]
  rfl

/-- C6: `build_incoming_links` satisfies the bidirectional consistency
conditions — every target occurrence `t ∈ graph[s]` with `t` a key of
the graph puts `s` into `incoming[t]`; names that are not keys of the
graph never become keys of `incoming`; and every graph key is an
`incoming` key. -/
theorem build_incoming_correct (graph : List (NoteName × List NoteName)) :
    (∀ s ts, lookupA graph s = some ts → ∀ t ∈ ts, isKey graph t →
      s ∈ (lookupA (build_incoming_links graph) t).getD []) ∧
    (∀ t, isKey (build_incoming_links graph) t → isKey graph t) ∧
    (∀ t, isKey graph t → isKey (build_incoming_links graph) t) := by
  refine ⟨?_, ?_, ?_⟩
  · intro s ts hs t ht hkey
    obtain ⟨v, hv⟩ : ∃ v, lookupA graph t = some v := by
      unfold isKey at hkey
      rcases h : lookupA graph t with _ | v
      · rw [h] at hkey; simp at hkey
      · exact ⟨v, rfl⟩
    have hinit : lookupA (graph.map fun p => (p.1, ([] : List NoteName))) t =
        some [] := by
      have := lookupA_map_val (fun _ _ => ([] : List NoteName)) graph t
      rw [this, hv]
      rfl
    have hmem : (s, ts) ∈ graph := lookupA_mem graph s ts hs
    obtain ⟨extra, hfin, hsin⟩ :=
      lookupA_foldEntries_hit t s graph _ [] ts hmem ht hinit
    unfold build_incoming_links
    rw [hfin]
    simpa using hsin
  · intro t h
    rw [isKey_iff_mem] at h ⊢
    rwa [fst_build_incoming] at h
  · intro t h
    rw [isKey_iff_mem] at h ⊢
    rwa [fst_build_incoming]

/-- C6 witness: in the graph `A -> [B], B -> []`, the incoming map has
exactly the keys `A`, `B` and records `A` as incoming for `B`. -/
theorem build_incoming_correct_witness :
    ['A'] ∈ (lookupA (build_incoming_links [(['A'], [['B']]), (['B'], [])]) ['B']).getD [] ∧
    isKey [(['A'], [['B']]), (['B'], [])] ['B'] :=
  ⟨(build_incoming_correct [(['A'], [['B']]), (['B'], [])]).1 ['A'] [['B']] rfl ['B']
      (by decide) (by decide),
   (build_incoming_correct [(['A'], [['B']]), (['B'], [])]).2.1 ['B']
      ((build_incoming_correct [(['A'], [['B']]), (['B'], [])]).2.2 ['B'] (by decide))⟩

/-! ### Lemmas about the vault scan -/

/-- Success test for the modelled exception flow. -/
def isOkE {ε α : Type} : Except ε α → Bool
  | .ok _ => true
  | .error _ => false

theorem fst_dictInsert {α : Type} (d : List (NoteName × α)) (k : NoteName) (v : α) :
    (dictInsert d k v).map Prod.fst =
      if k ∈ d.map Prod.fst then d.map Prod.fst else d.map Prod.fst ++ [k] := by
  unfold dictInsert
  by_cases h : isKey d k
  · rw [if_pos h, if_pos ((isKey_iff_mem d k).mp h), List.map_map]
    refine List.map_congr_left ?_
    intro p _
    by_cases hpk : p.1 = k
    · simp [hpk]
    · simp [hpk]
  · rw [if_neg h, if_neg (fun hmem => h ((isKey_iff_mem d k).mpr hmem))]
    simp

theorem keys_eq_processFile (read : List Char → ReadResult)
    (acc out : List (NoteName × List NoteName) × List (NoteName × List Char))
    (d f : List Char)
    (h : processFile read acc d f = .ok out)
    (hk : acc.1.map Prod.fst = acc.2.map Prod.fst) :
    out.1.map Prod.fst = out.2.map Prod.fst := by
  unfold processFile at h
  split_ifs at h with hmd
  · rcases hres : extract_links_from_file read (pathJoin d f) with e | links
    · rw [hres] at h
      exact Except.noConfusion h
    · rw [hres] at h
      have hout : out = (dictInsert acc.1 (f.take (f.length - 3)) links,
          dictInsert acc.2 (f.take (f.length - 3)) (pathJoin d f)) := by
        injection h with h'
        exact h'.symm
      rw [hout]
      simp only [fst_dictInsert]
      rw [hk]
  · have hout : out = acc := by
      injection h with h'
      exact h'.symm
    rw [hout]
    exact hk

theorem keys_eq_files (read : List Char → ReadResult) (d : List Char) :
    ∀ (files : List (List Char))
      (acc out : List (NoteName × List NoteName) × List (NoteName × List Char)),
      acc.1.map Prod.fst = acc.2.map Prod.fst →
      files.foldlM (fun acc file => processFile read acc d file) acc = .ok out →
      out.1.map Prod.fst = out.2.map Prod.fst := by
  intro files
  induction files with
  | nil =>
    intro acc out hk h
    have : acc = out := by
      injection h with h'
    rw [← this]
    exact hk
  | cons f fs ih =>
    intro acc out hk h
    rw [List.foldlM_cons] at h
    rcases hres : processFile read acc d f with e | acc1
    · rw [hres] at h
      exact Except.noConfusion h
    · rw [hres] at h
      exact ih acc1 out (keys_eq_processFile read acc acc1 d f hres hk) h

/-- C10: the two maps built by `build_note_graph` always carry exactly
the same keys (in the same order), so every note that appears as a
graph node has a resolvable file path. -/
theorem build_note_graph_keys (read : List Char → ReadResult)
    (walk : List (List Char × List (List Char)))
    (g : List (NoteName × List NoteName)) (p : List (NoteName × List Char))
    (h : build_note_graph read walk = .ok (g, p)) :
    g.map Prod.fst = p.map Prod.fst := by
  unfold build_note_graph at h
  suffices hgen : ∀ (w : List (List Char × List (List Char)))
      (acc : List (NoteName × List NoteName) × List (NoteName × List Char)),
      acc.1.map Prod.fst = acc.2.map Prod.fst →
      w.foldlM (fun acc entry =>
        entry.2.foldlM (fun acc file => processFile read acc entry.1 file) acc) acc =
        .ok (g, p) →
      g.map Prod.fst = p.map Prod.fst by
    exact hgen walk ([], []) rfl h
  intro w
  induction w with
  | nil =>
    intro acc hk hfold
    have : acc = (g, p) := by
      injection hfold with h'
    rw [this] at hk
    exact hk
  | cons e es ih =>
    intro acc hk hfold
    rw [List.foldlM_cons] at hfold
    rcases hres : e.2.foldlM (fun acc file => processFile read acc e.1 file) acc with er | acc1
    · rw [hres] at hfold
      exact Except.noConfusion hfold
    · rw [hres] at hfold
      exact ih acc1 (keys_eq_files read e.1 e.2 acc acc1 hk hres) hfold

/-- C10 witness: on a one-file vault the graph and path maps have the
same key list. -/
theorem build_note_graph_keys_witness :
    [(['a'], extractLinks [])].map Prod.fst =
      [(['a'], pathJoin ['d'] ['a', '.', 'm', 'd'])].map Prod.fst :=
  build_note_graph_keys (fun _ => ReadResult.ok [])
    [(['d'], [['a', '.', 'm', 'd']])] _ _ rfl

theorem extract_links_notFound (read : List Char → ReadResult) (path : List Char)
    (h : read path = .fileNotFound) :
    extract_links_from_file read path = .ok [] := by
  unfold extract_links_from_file
  rw [h]

theorem processFile_ok (read : List Char → ReadResult)
    (acc : List (NoteName × List NoteName) × List (NoteName × List Char))
    (d f : List Char)
    (h : endsWithMd f = true → read (pathJoin d f) ≠ .otherError) :
    ∃ out, processFile read acc d f = .ok out := by
  unfold processFile
  split_ifs with hmd
  · rcases hr : read (pathJoin d f) with t | _ | _
    · have he : extract_links_from_file read (pathJoin d f) = .ok (extractLinks t) := by
        unfold extract_links_from_file
        rw [hr]
      rw [he]
      exact ⟨_, rfl⟩
    · have he : extract_links_from_file read (pathJoin d f) = .ok [] := by
        unfold extract_links_from_file
        rw [hr]
      rw [he]
      exact ⟨_, rfl⟩
    · exact absurd hr (h hmd)
  · exact ⟨acc, rfl⟩

theorem files_fold_ok (read : List Char → ReadResult) (d : List Char) :
    ∀ (files : List (List Char))
      (acc : List (NoteName × List NoteName) × List (NoteName × List Char)),
      (∀ f ∈ files, endsWithMd f = true → read (pathJoin d f) ≠ .otherError) →
      ∃ out, files.foldlM (fun acc file => processFile read acc d file) acc = .ok out := by
  intro files
  induction files with
  | nil => intro acc _; exact ⟨acc, rfl⟩
  | cons f fs ih =>
    intro acc h
    obtain ⟨a1, ha1⟩ := processFile_ok read acc d f (h f (List.mem_cons_self _ _))
    obtain ⟨out, hout⟩ := ih a1 (fun g hg => h g (List.mem_cons_of_mem _ hg))
    refine ⟨out, ?_⟩
    rw [List.foldlM_cons, ha1]
    exact hout

/-- C2 (amended): per-file read failures degrade to zero links and the
scan completes only for `FileNotFoundError` — the sole exception the
source catches; any other read failure (permission error, undecodable
content) propagates and aborts the whole build. -/
theorem build_scan_error_policy (read : List Char → ReadResult)
    (walk : List (List Char × List (List Char)))
    (h : ∀ e ∈ walk, ∀ f ∈ e.2, endsWithMd f = true →
      read (pathJoin e.1 f) ≠ .otherError) :
    isOkE (build_note_graph read walk) = true ∧
    ∀ path, read path = .fileNotFound → extract_links_from_file read path = .ok [] := by
  constructor
  · suffices hgen : ∀ (w : List (List Char × List (List Char)))
        (acc : List (NoteName × List NoteName) × List (NoteName × List Char)),
        (∀ e ∈ w, ∀ f ∈ e.2, endsWithMd f = true → read (pathJoin e.1 f) ≠ .otherError) →
        ∃ out, w.foldlM (fun acc entry =>
          entry.2.foldlM (fun acc file => processFile read acc entry.1 file) acc) acc =
          .ok out by
      obtain ⟨out, hout⟩ := hgen walk ([], []) h
      unfold build_note_graph
      rw [hout]
      rfl
    intro w
    induction w with
    | nil => intro acc _; exact ⟨acc, rfl⟩
    | cons e es ih =>
      intro acc hw
      obtain ⟨a1, ha1⟩ := files_fold_ok read e.1 e.2 acc
        (fun f hf => hw e (List.mem_cons_self _ _) f hf)
      obtain ⟨out, hout⟩ := ih a1 (fun e' he' => hw e' (List.mem_cons_of_mem _ he'))
      refine ⟨out, ?_⟩
      rw [List.foldlM_cons, ha1]
      exact hout
  · intro path hp
    exact extract_links_notFound read path hp

/-- C2 counterexample: a vault with one `.md` file whose read raises a
non-`FileNotFoundError` exception (e.g. a permission error) makes the
whole build abort instead of recording the note with zero links. -/
theorem build_scan_abort_cex :
    build_note_graph (fun _ => ReadResult.otherError)
      [(['v'], [['a', '.', 'm', 'd']])] = .error () := rfl

/-- C2 witness: with only missing-file failures the build completes and
the missing file contributes zero links. -/
theorem build_scan_error_policy_witness :
    isOkE (build_note_graph (fun _ => ReadResult.fileNotFound)
      [(['v'], [['a', '.', 'm', 'd']])]) = true ∧
    extract_links_from_file (fun _ => ReadResult.fileNotFound) ['p'] = .ok [] :=
  ⟨(build_scan_error_policy (fun _ => ReadResult.fileNotFound)
      [(['v'], [['a', '.', 'm', 'd']])] (by decide)).1,
   (build_scan_error_policy (fun _ => ReadResult.fileNotFound)
      [(['v'], [['a', '.', 'm', 'd']])] (by decide)).2 ['p'] rfl⟩

/-! ### Lemmas about the force layout -/

theorem force_layout_eq_map (env : LayoutEnv) (graph : List (NoteName × List NoteName))
    (w h : ℤ) (iterations : Nat) :
    force_layout env graph w h iterations =
      graph.map (fun e => (e.1,
        (pyTrunc (force_layout_raw env graph w h iterations e.1).1,
         pyTrunc (force_layout_raw env graph w h iterations e.1).2))) := rfl

theorem clampQ_le (lo hi q : ℚ) (h : lo ≤ hi) :
    lo ≤ clampQ lo hi q ∧ clampQ lo hi q ≤ hi :=
  ⟨le_min h (le_max_left lo q), min_le_left hi _⟩

/-- Positions inside the clamp region `[1, w-2] × [1, h-3]`. -/
def InBounds (w h : ℤ) (pos : NoteName → ℚ × ℚ) : Prop :=
  ∀ v, 1 ≤ (pos v).1 ∧ (pos v).1 ≤ (w : ℚ) - 2 ∧
    1 ≤ (pos v).2 ∧ (pos v).2 ≤ (h : ℚ) - 3

theorem moveClamp_inBounds (env : LayoutEnv) (w h : ℤ) (disp pos : NoteName → ℚ × ℚ)
    (hw : 3 ≤ w) (hh : 4 ≤ h) : InBounds w h (moveClamp env w h disp pos) := by
  have hw' : (1 : ℚ) ≤ (w : ℚ) - 2 := by
    have : (3 : ℚ) ≤ (w : ℚ) := by exact_mod_cast hw
    linarith
  have hh' : (1 : ℚ) ≤ (h : ℚ) - 3 := by
    have : (4 : ℚ) ≤ (h : ℚ) := by exact_mod_cast hh
    linarith
  intro v
  exact ⟨(clampQ_le _ _ _ hw').1, (clampQ_le _ _ _ hw').2,
    (clampQ_le _ _ _ hh').1, (clampQ_le _ _ _ hh').2⟩

theorem layoutRound_inBounds (env : LayoutEnv) (graph : List (NoteName × List NoteName))
    (w h : ℤ) (k : ℚ) (pos : NoteName → ℚ × ℚ) (hw : 3 ≤ w) (hh : 4 ≤ h) :
    InBounds w h (layoutRound env graph w h k pos) :=
  moveClamp_inBounds env w h _ pos hw hh

theorem layoutIter_inBounds (env : LayoutEnv) (graph : List (NoteName × List NoteName))
    (w h : ℤ) (k : ℚ) (hw : 3 ≤ w) (hh : 4 ≤ h) :
    ∀ (n : Nat) (pos : NoteName → ℚ × ℚ), InBounds w h pos →
      InBounds w h (layoutIter env graph w h k n pos) := by
  intro n
  induction n with
  | zero => intro pos hp; exact hp
  | succ n ih =>
    intro pos _
    simp only [layoutIter]
    exact ih _ (layoutRound_inBounds env graph w h k pos hw hh)

theorem pyTrunc_bounds (q : ℚ) (lo hi : ℤ) (hlo : 0 ≤ lo) (h1 : (lo : ℚ) ≤ q)
    (h2 : q ≤ (hi : ℚ)) : lo ≤ pyTrunc q ∧ pyTrunc q ≤ hi := by
  have hq : 0 ≤ q := le_trans (by exact_mod_cast hlo) h1
  rw [pyTrunc, if_pos hq]
  constructor
  · exact Int.le_floor.mpr h1
  · calc ⌊q⌋ ≤ ⌊(hi : ℚ)⌋ := Int.floor_le_floor h2
      _ = hi := Int.floor_intCast hi

theorem init_inBounds (env : LayoutEnv) (w h : ℤ)
    (hrx : ∀ v, 1 ≤ env.randX v ∧ env.randX v ≤ w - 2)
    (hry : ∀ v, 1 ≤ env.randY v ∧ env.randY v ≤ h - 3) :
    InBounds w h (fun v => ((env.randX v : ℚ), (env.randY v : ℚ))) := by
  intro v
  dsimp only
  obtain ⟨h1, h2⟩ := hrx v
  obtain ⟨h3, h4⟩ := hry v
  refine ⟨by exact_mod_cast h1, ?_, by exact_mod_cast h3, ?_⟩
  · have hc : ((env.randX v : ℤ) : ℚ) ≤ ((w - 2 : ℤ) : ℚ) := by exact_mod_cast h2
    push_cast at hc
    linarith
  · have hc : ((env.randY v : ℤ) : ℚ) ≤ ((h - 3 : ℤ) : ℚ) := by exact_mod_cast h4
    push_cast at hc
    linarith

/-- C1: for any region with `width ≥ 3` and `height ≥ 4`, any random
draws within the `randint` ranges, any abstraction of float `sqrt`, and
any number of iterations (so in particular the default 200),
`force_layout` returns one position per graph node, each inside
`[1, width-2] × [1, height-3]`; the zero-node graph gives an empty
mapping and a one-node graph exactly one entry. -/
theorem force_layout_bounds (env : LayoutEnv) (graph : List (NoteName × List NoteName))
    (w h : ℤ) (iterations : Nat) (hw : 3 ≤ w) (hh : 4 ≤ h)
    (hrx : ∀ v, 1 ≤ env.randX v ∧ env.randX v ≤ w - 2)
    (hry : ∀ v, 1 ≤ env.randY v ∧ env.randY v ≤ h - 3) :
    ((force_layout env graph w h iterations).map Prod.fst = graph.map Prod.fst) ∧
    (∀ e ∈ force_layout env graph w h iterations,
      1 ≤ e.2.1 ∧ e.2.1 ≤ w - 2 ∧ 1 ≤ e.2.2 ∧ e.2.2 ≤ h - 3) ∧
    (graph = [] → force_layout env graph w h iterations = []) ∧
    (graph.length = 1 → (force_layout env graph w h iterations).length = 1) := by
  have hraw : InBounds w h (force_layout_raw env graph w h iterations) := by
    unfold force_layout_raw
    exact layoutIter_inBounds env graph w h _ hw hh iterations _
      (init_inBounds env w h hrx hry)
  refine ⟨?_, ?_, ?_, ?_⟩
  · rw [force_layout_eq_map, List.map_map]
    rfl
  · intro e he
    rw [force_layout_eq_map] at he
    obtain ⟨p, hp, rfl⟩ := List.mem_map.mp he
    obtain ⟨b1, b2, b3, b4⟩ := hraw p.1
    have hb2 : (force_layout_raw env graph w h iterations p.1).1 ≤ ((w - 2 : ℤ) : ℚ) := by
      push_cast
      linarith
    have hb4 : (force_layout_raw env graph w h iterations p.1).2 ≤ ((h - 3 : ℤ) : ℚ) := by
      push_cast
      linarith
    have hx := pyTrunc_bounds _ 1 (w - 2) (by omega) (by exact_mod_cast b1) hb2
    have hy := pyTrunc_bounds _ 1 (h - 3) (by omega) (by exact_mod_cast b3) hb4
    exact ⟨hx.1, hx.2, hy.1, hy.2⟩
  · intro hg
    subst hg
    rfl
  · intro hlen
    rw [force_layout_eq_map, List.length_map]
    exact hlen

/-- C1 witness: a one-node graph in a 3 × 4 region keeps its key, and a
zero-node graph yields the empty mapping. -/
theorem force_layout_bounds_witness :
    (force_layout ⟨fun _ => 0, fun _ => 1, fun _ => 1⟩ [(['A'], [])] 3 4 200).map Prod.fst =
      [(['A'], ([] : List NoteName))].map Prod.fst ∧
    force_layout ⟨fun _ => 0, fun _ => 1, fun _ => 1⟩ [] 3 4 200 = [] ∧
    (force_layout ⟨fun _ => 0, fun _ => 1, fun _ => 1⟩ [(['A'], [])] 3 4 200).length = 1 :=
  ⟨(force_layout_bounds ⟨fun _ => 0, fun _ => 1, fun _ => 1⟩ [(['A'], [])] 3 4 200
      (by omega) (by omega) (fun v => ⟨le_refl 1, le_refl 1⟩) (fun v => ⟨le_refl 1, le_refl 1⟩)).1,
   (force_layout_bounds ⟨fun _ => 0, fun _ => 1, fun _ => 1⟩ [] 3 4 200
      (by omega) (by omega) (fun v => ⟨le_refl 1, le_refl 1⟩) (fun v => ⟨le_refl 1, le_refl 1⟩)).2.2.1
      rfl,
   (force_layout_bounds ⟨fun _ => 0, fun _ => 1, fun _ => 1⟩ [(['A'], [])] 3 4 200
      (by omega) (by omega) (fun v => ⟨le_refl 1, le_refl 1⟩) (fun v => ⟨le_refl 1, le_refl 1⟩)).2.2.2
      rfl⟩

end Greenlight
